import Mathlib

/-!
# Verification of the printers-manager image pipeline and command encoder

Shallow embedding of the algorithmic core of the repository:

* `src/print_image_any.py` — Floyd–Steinberg dithering (`floyd_steinberg_dithering`,
  lines 14–39) and the ESC/POS bitmap conversion (`convert_to_bitmap`, lines 42–148).
* `src/server.py` — the pure ESC/POS command encoders (`esc_align`, line 159–161)
  and the text payload construction (`print_text`, line 436).

Images are represented the way numpy/PIL expose them to this code: a list of rows,
each row a list of 8-bit intensity samples (`ℕ`).  numpy's `shape` gives
`height = number of rows` and `width = length of the first row`.  The float
arithmetic of the dithering accumulator is modelled exactly over `ℚ`
(the source relies on a type wide enough to hold transient out-of-range sums).
-/

namespace PrintersManager

/-- numpy `shape[0]` of a 2-D array: the number of rows. -/
def gridH (g : List (List α)) : ℕ := g.length

/-- numpy `shape[1]` of a 2-D array: the length of the first row
(all rows of a numpy array have this length). -/
def gridW (g : List (List α)) : ℕ := (g.getD 0 []).length

/-- A grid is rectangular: every row has length `gridW` (a numpy array invariant). -/
abbrev Rectangular (g : List (List α)) : Prop := ∀ row ∈ g, row.length = gridW g

/-- PIL `img.getpixel((x, y))` / numpy `a[y, x]` read (out-of-range reads default
to 0; the source only reads in range). -/
def getPx (g : List (List ℕ)) (x y : ℕ) : ℕ := (g.getD y []).getD x 0

/-- Read of the float accumulator grid `output[y, x]`. -/
def qget (g : List (List ℚ)) (y x : ℕ) : ℚ := (g.getD y []).getD x 0

/-- Write to the float accumulator grid `output[y, x] = v` (out-of-range writes
are dropped; the source only writes in range). -/
def qset (g : List (List ℚ)) (y x : ℕ) (v : ℚ) : List (List ℚ) :=
  g.set y ((g.getD y []).set x v)

/-- Accumulating write `output[y, x] += v`. -/
def qadd (g : List (List ℚ)) (y x : ℕ) (v : ℚ) : List (List ℚ) :=
  qset g y x (qget g y x + v)

/-- One iteration of the double loop of `floyd_steinberg_dithering`
(print_image_any.py lines 24–37): quantize `output[y, x]` against 128 and
diffuse the quantization error east, southwest, south and southeast. -/
def fsStep (h w : ℕ) (g : List (List ℚ)) (yx : ℕ × ℕ) : List (List ℚ) :=
  let y := yx.1
  let x := yx.2
  let old_pixel := qget g y x
  let new_pixel : ℚ := if old_pixel > 128 then 255 else 0
  let g1 := qset g y x new_pixel
  let error := old_pixel - new_pixel
  let g2 := if x + 1 < w then qadd g1 y (x + 1) (error * 7 / 16) else g1
  if y + 1 < h then
    let g3 := if x > 0 then qadd g2 (y + 1) (x - 1) (error * 3 / 16) else g2
    let g4 := qadd g3 (y + 1) x (error * 5 / 16)
    if x + 1 < w then qadd g4 (y + 1) (x + 1) (error * 1 / 16) else g4
  else g2

/-- The nested `for y in range(height): for x in range(width):` loop of
`floyd_steinberg_dithering` (print_image_any.py lines 22–37). -/
def ditherLoop (h w : ℕ) (g : List (List ℚ)) : List (List ℚ) :=
  (List.range h).foldl
    (fun g y => (List.range w).foldl (fun g x => fsStep h w g (y, x)) g) g

/-- `output = img_array.copy().astype(float)` (print_image_any.py line 20). -/
def toFloatGrid (g : List (List ℕ)) : List (List ℚ) :=
  g.map (fun row => row.map (fun (v : ℕ) => (v : ℚ)))

/-- numpy `.astype(np.uint8)` applied to one float sample: truncate toward zero
and reduce modulo 256 (print_image_any.py line 39; the dithered grid only holds
the exact values 0 and 255 at this point). -/
def ratToUint8 (q : ℚ) : ℕ := ((q.num / (q.den : ℤ)) % 256).toNat

/-- `output.astype(np.uint8)` (print_image_any.py line 39). -/
def toUint8Grid (g : List (List ℚ)) : List (List ℕ) :=
  g.map (fun row => row.map ratToUint8)

/-- `floyd_steinberg_dithering` (print_image_any.py lines 14–39): copy the input
into a float accumulator, run the error-diffusion loop, convert back to uint8. -/
def floyd_steinberg_dithering (g : List (List ℕ)) : List (List ℕ)  :=
  toUint8Grid (ditherLoop (gridH g) (gridW g) (toFloatGrid g))

/-- The thresholding lambda `0 if x < 128 else 255` of
`img.point(lambda x: 0 if x < 128 else 255, '1')` (print_image_any.py line 73). -/
def bwPixel (v : ℕ) : ℕ := if v < 128 then 0 else 255

/-- `img.point(lambda x: 0 if x < 128 else 255, '1')` applied to the whole image. -/
def pointBW (g : List (List ℕ)) : List (List ℕ) :=
  g.map (fun row => row.map bwPixel)

/-- `img.point(lambda x: 255 - x)` (print_image_any.py line 77): swap
black and white on the bilevel image. -/
def invertImg (g : List (List ℕ)) : List (List ℕ) :=
  g.map (fun row => row.map (fun v => 255 - v))

/-- Python `str.lower()` on the ASCII alignment names. -/
def pyLower (s : String) : String := ⟨s.data.map Char.toLower⟩

/-- The alignment command chosen by `convert_to_bitmap`
(print_image_any.py lines 90–94): a dict lookup on `align.lower()` whose
default is the centering command `\x1b\x61\x01`. -/
def alignCmd (align : String) : List ℕ :=
  if pyLower align = "left" then [0x1B, 0x61, 0x00]
  else if pyLower align = "center" then [0x1B, 0x61, 0x01]
  else if pyLower align = "right" then [0x1B, 0x61, 0x02]
  else [0x1B, 0x61, 0x01]

/-- The inner byte-assembly loop of the raster branch
(print_image_any.py lines 118–124): 8 pixels starting at column `x` of row `y`,
most-significant bit first, bit set exactly when the pixel is black (`pixel == 0`);
columns at or beyond `w` contribute 0. -/
def byteVal (g : List (List ℕ)) (y x w : ℕ) : ℕ :=
  (List.range 8).foldl
    (fun acc bit =>
      if x + bit < w then
        if getPx g (x + bit) y = 0 then acc ||| (0x80 >>> bit) else acc
      else acc)
    0

/-- `bytes_per_line = (width + 7) // 8` (print_image_any.py line 84). -/
def bytesPerLine (w : ℕ) : ℕ := (w + 7) / 8

/-- One packed row (print_image_any.py lines 116–129): bytes for
`x = 0, 8, 16, …` followed by the zero padding of the
`while len(line_data) < bytes_per_line` loop. -/
def packLine (g : List (List ℕ)) (w y : ℕ) : List ℕ :=
  let lineData := (List.range (bytesPerLine w)).map (fun i => byteVal g y (8 * i) w)
  lineData ++ List.replicate (bytesPerLine w - lineData.length) 0

/-- The full packed bitmap, rows concatenated in order
(print_image_any.py lines 115–131). -/
def packBitmap (g : List (List ℕ)) (w h : ℕ) : List ℕ :=
  (List.range h).flatMap (fun y => packLine g w y)

/-- The column-mode data bytes (print_image_any.py lines 140–143):
`for y in range(height): for x in range(width):` one byte per pixel,
`0xFF` for black (`pixel == 0`), `0x00` otherwise. -/
def columnBody (g : List (List ℕ)) (w h : ℕ) : List ℕ :=
  (List.range h).flatMap
    (fun y => (List.range w).map (fun x => if getPx g x y = 0 then 0xFF else 0x00))

/-- The image-processing pipeline of `convert_to_bitmap` before packing
(print_image_any.py lines 67–77): optional dithering, the 128 threshold,
optional inversion. -/
def procImg (image : List (List ℕ)) (invert : Bool) (dither : Bool) :
    List (List ℕ) :=
  let img1 := if dither then floyd_steinberg_dithering image else image
  let img2 := pointBW img1
  if invert then invertImg img2 else img2

/-- `convert_to_bitmap` (print_image_any.py lines 42–148) from the grayscale
stage onward.  PIL decoding, the `'L'` conversion and the LANCZOS resize
(lines 58–64) are external library calls and are elided: the input grid is the
post-resize grayscale image.  The output is the byte buffer the function
returns: alignment command, then either the GS v 0 raster command or the
ESC * column command, then the reset-to-left alignment command. -/
def convert_to_bitmap (image : List (List ℕ)) (invert : Bool) (align : String)
    (mode : String) (dither : Bool) : List ℕ :=
  let img := procImg image invert dither
  let w := gridW img
  let h := gridH img
  let bpl := bytesPerLine w
  alignCmd align
    ++ (if mode = "gsv0" then
          [0x1D, 0x76, 0x30, 0x00, bpl &&& 0xFF, (bpl >>> 8) &&& 0xFF,
           h &&& 0xFF, (h >>> 8) &&& 0xFF] ++ packBitmap img w h
        else
          [0x1B, 0x2A, 33, w &&& 0xFF, (w >>> 8) &&& 0xFF] ++ columnBody img w h)
    ++ [0x1B, 0x61, 0x00]

/-- `esc_align` (server.py lines 159–161): exact dict lookup (no lowering)
whose default is 0 (left). -/
def esc_align (align : String) : List ℕ :=
  [0x1B, 0x61,
   if align = "left" then 0 else if align = "center" then 1
   else if align = "right" then 2 else 0]

/-- The byte payload handed to the printer for a text job: `p.text(text + "\n")`
(server.py line 436), at the byte level (the code-page transcoding is performed
by the external escpos library). -/
def printTextPayload (text : List ℕ) : List ℕ := text ++ [0x0A]

/-! ## Spec-side definitions (refinement targets, written from the spec's words) -/

/-- From the spec (§4.1): "output level = white if `v > 128` else black
(threshold is exclusive on 128 for white, i.e., 128 quantizes to black)". -/
def quantize (v : ℚ) : ℚ := if v > 128 then 255 else 0

/-- From the spec (§4.1, claim C1): quantize the current accumulated value,
then add `error = v − outputLevel` to the not-yet-visited neighbors with
weights 7/16 east, 3/16 southwest, 5/16 south, 1/16 southeast, silently
dropping contributions that fall outside the image bounds. -/
def specStep (h w : ℕ) (g : List (List ℚ)) (yx : ℕ × ℕ) : List (List ℚ) :=
  let y := yx.1
  let x := yx.2
  let v := qget g y x
  let out := quantize v
  let error := v - out
  let g1 := qset g y x out
  let g2 := if x + 1 < w then qadd g1 y (x + 1) (error * (7 / 16)) else g1
  let g3 := if 0 < x ∧ y + 1 < h then qadd g2 (y + 1) (x - 1) (error * (3 / 16)) else g2
  let g4 := if y + 1 < h then qadd g3 (y + 1) x (error * (5 / 16)) else g3
  if x + 1 < w ∧ y + 1 < h then qadd g4 (y + 1) (x + 1) (error * (1 / 16)) else g4

/-- The raster-order visiting sequence: row by row, left to right. -/
def rasterIndices (h w : ℕ) : List (ℕ × ℕ) :=
  (List.range h).flatMap (fun y => (List.range w).map (fun x => (y, x)))

/-- Raster order on pixel coordinates `(y, x)`: earlier row, or same row and
earlier column. -/
def rasterLt (p q : ℕ × ℕ) : Prop := p.1 < q.1 ∨ (p.1 = q.1 ∧ p.2 < q.2)

/-! ## Basic list and grid lemmas -/

theorem set_getD_self (l : List α) (i : ℕ) (d : α) : l.set i (l.getD i d) = l := by
  induction l generalizing i with
  | nil => simp
  | cons a l ih =>
    cases i with
    | zero => simp [List.getD]
    | succ i => simpa [List.getD] using ih i

theorem getD_set_self (l : List α) (i : ℕ) (a d : α) (hi : i < l.length) :
    (l.set i a).getD i d = a := by
  rw [List.getD_eq_getElem?_getD, List.getElem?_set_self hi]
  rfl

theorem getD_set_ne (l : List α) {i j : ℕ} (a d : α) (hij : i ≠ j) :
    (l.set i a).getD j d = l.getD j d := by
  rw [List.getD_eq_getElem?_getD, List.getElem?_set_ne hij, ← List.getD_eq_getElem?_getD]

theorem getD_map_of_default (f : α → β) (l : List α) (i : ℕ) (d : α)
    (hd : f d = d₂) : (l.map f).getD i d₂ = f (l.getD i d) := by
  rcases Nat.lt_or_ge i l.length with hi | hi
  · rw [List.getD_eq_getElem?_getD, List.getElem?_map,
      List.getElem?_eq_getElem hi, List.getD_eq_getElem l d hi]
    simp
  · rw [List.getD_eq_default _ _ (by simpa using hi), List.getD_eq_default _ _ hi, hd]

theorem qget_qset_self (g : List (List ℚ)) (y x : ℕ) (v : ℚ)
    (hy : y < g.length) (hx : x < (g.getD y []).length) :
    qget (qset g y x v) y x = v := by
  unfold qget qset
  rw [getD_set_self _ _ _ _ hy, getD_set_self _ _ _ _ hx]

theorem qset_out_of_range (g : List (List ℚ)) (y x : ℕ) (v : ℚ)
    (h : y < g.length → (g.getD y []).length ≤ x) :
    qset g y x v = g := by
  unfold qset
  rcases Nat.lt_or_ge y g.length with hy | hy
  · rw [List.set_eq_of_length_le (h hy), set_getD_self]
  · exact List.set_eq_of_length_le hy

theorem qget_out_of_range (g : List (List ℚ)) (y x : ℕ)
    (h : y < g.length → (g.getD y []).length ≤ x) :
    qget g y x = 0 := by
  unfold qget
  rcases Nat.lt_or_ge y g.length with hy | hy
  · exact List.getD_eq_default _ _ (h hy)
  · rw [List.getD_eq_default _ _ hy]
    rfl

theorem qget_qset_ne (g : List (List ℚ)) {y x y₂ x₂ : ℕ} (v : ℚ)
    (hne : (y, x) ≠ (y₂, x₂)) :
    qget (qset g y x v) y₂ x₂ = qget g y₂ x₂ := by
  unfold qget qset
  rcases Nat.decEq y y₂ with hy | hy
  · rw [getD_set_ne _ _ _ hy]
  · subst hy
    rcases Nat.lt_or_ge y g.length with hyl | hyl
    · have hx : x ≠ x₂ := fun hx => hne (by rw [hx])
      rw [getD_set_self _ _ _ _ hyl, getD_set_ne _ _ _ hx]
    · rw [List.set_eq_of_length_le hyl]

theorem qget_qadd_ne (g : List (List ℚ)) {y x y₂ x₂ : ℕ} (v : ℚ)
    (hne : (y, x) ≠ (y₂, x₂)) :
    qget (qadd g y x v) y₂ x₂ = qget g y₂ x₂ :=
  qget_qset_ne g _ hne

theorem qadd_zero (g : List (List ℚ)) (y x : ℕ) : qadd g y x 0 = g := by
  unfold qadd qset
  rw [add_zero]
  show g.set y ((g.getD y []).set x ((g.getD y []).getD x 0)) = g
  rw [set_getD_self, set_getD_self]

/-! ### Shape preservation -/

theorem length_qset (g : List (List ℚ)) (y x : ℕ) (v : ℚ) :
    (qset g y x v).length = g.length := by
  unfold qset; simp

theorem rowLen_qset (g : List (List ℚ)) (y x : ℕ) (v : ℚ) (y₂ : ℕ) :
    ((qset g y x v).getD y₂ []).length = (g.getD y₂ []).length := by
  unfold qset
  rcases Nat.decEq y y₂ with hy | hy
  · rw [getD_set_ne _ _ _ hy]
  · subst hy
    rcases Nat.lt_or_ge y g.length with hyl | hyl
    · rw [getD_set_self _ _ _ _ hyl]; simp
    · rw [List.set_eq_of_length_le hyl]

theorem length_qadd (g : List (List ℚ)) (y x : ℕ) (v : ℚ) :
    (qadd g y x v).length = g.length := length_qset ..

theorem rowLen_qadd (g : List (List ℚ)) (y x : ℕ) (v : ℚ) (y₂ : ℕ) :
    ((qadd g y x v).getD y₂ []).length = (g.getD y₂ []).length := rowLen_qset ..

/-! ### The source loop body agrees with the spec's step -/

theorem fsStep_eq_specStep (h w : ℕ) (g : List (List ℚ)) (yx : ℕ × ℕ) :
    fsStep h w g yx = specStep h w g yx := by
  obtain ⟨y, x⟩ := yx
  unfold fsStep specStep quantize
  simp only
  by_cases hy : y + 1 < h <;> by_cases hx : x + 1 < w <;> by_cases hx0 : 0 < x <;>
    simp [hy, hx, hx0, mul_div_assoc, div_eq_mul_inv, mul_assoc]

theorem foldl_flatMap (f : α → List β) (step : γ → β → γ) (l : List α) (init : γ) :
    (l.flatMap f).foldl step init
      = l.foldl (fun acc a => (f a).foldl step acc) init := by
  induction l generalizing init with
  | nil => rfl
  | cons a l ih => simp [List.foldl_append, ih]

theorem ditherLoop_eq_raster (h w : ℕ) (g : List (List ℚ)) :
    ditherLoop h w g = (rasterIndices h w).foldl (specStep h w) g := by
  unfold ditherLoop rasterIndices
  rw [foldl_flatMap]
  congr 1
  funext acc y
  rw [List.foldl_map]
  congr 1
  funext acc₂ x
  exact fsStep_eq_specStep h w acc₂ (y, x)

theorem mem_rasterIndices {h w : ℕ} {p : ℕ × ℕ} :
    p ∈ rasterIndices h w ↔ p.1 < h ∧ p.2 < w := by
  obtain ⟨y, x⟩ := p
  simp only [rasterIndices, List.mem_flatMap, List.mem_map, List.mem_range]
  constructor
  · rintro ⟨a, ha, b, hb, heq⟩
    cases heq
    exact ⟨ha, hb⟩
  · rintro ⟨hy, hx⟩
    exact ⟨y, hy, x, hx, rfl⟩

theorem pairwise_rasterIndices (h w : ℕ) :
    (rasterIndices h w).Pairwise rasterLt := by
  induction h with
  | zero => exact List.Pairwise.nil
  | succ h ih =>
    unfold rasterIndices at ih ⊢
    rw [List.range_succ, List.flatMap_append, List.pairwise_append]
    refine ⟨ih, ?_, ?_⟩
    · simp only [List.flatMap_cons, List.flatMap_nil, List.append_nil,
        List.pairwise_map]
      exact (List.pairwise_lt_range w).imp (fun hab => Or.inr ⟨rfl, hab⟩)
    · intro a ha b hb
      have ha2 : a.1 < h ∧ a.2 < w := mem_rasterIndices.mp ha
      simp only [List.flatMap_cons, List.flatMap_nil, List.append_nil,
        List.mem_map] at hb
      obtain ⟨x, _, rfl⟩ := hb
      exact Or.inl ha2.1

/-! ### Raster stability: a processed pixel is final and two-level -/

theorem qget_specStep_later (h w : ℕ) (g : List (List ℚ)) {p q : ℕ × ℕ}
    (hpq : rasterLt p q) :
    qget (specStep h w g q) p.1 p.2 = qget g p.1 p.2 := by
  obtain ⟨y, x⟩ := q
  obtain ⟨py, px⟩ := p
  have hy : py ≤ y := by
    rcases hpq with hlt | ⟨heq, _⟩
    · exact Nat.le_of_lt hlt
    · exact Nat.le_of_eq heq
  have hne0 : (y, x) ≠ (py, px) := by
    rintro ⟨⟩
    rcases hpq with hlt | ⟨_, hlt⟩ <;> exact absurd hlt (lt_irrefl _)
  have hne1 : (y, x + 1) ≠ (py, px) := by
    rintro ⟨⟩
    rcases hpq with hlt | ⟨_, hlt⟩
    · exact absurd hlt (lt_irrefl _)
    · exact absurd hlt (by omega)
  have hrow : ∀ x₂ : ℕ, (y + 1, x₂) ≠ (py, px) := by
    rintro x₂ ⟨⟩
    omega
  unfold specStep
  simp only
  split <;> split <;> split <;> split <;>
    simp only [qget_qadd_ne _ _ hne0, qget_qadd_ne _ _ hne1,
      qget_qadd_ne _ _ (hrow _), qget_qset_ne _ _ hne0]

theorem qget_specStep_self (h w : ℕ) (g : List (List ℚ)) (q : ℕ × ℕ) :
    qget (specStep h w g q) q.1 q.2 = 0 ∨ qget (specStep h w g q) q.1 q.2 = 255 := by
  obtain ⟨y, x⟩ := q
  have hne1 : (y, x + 1) ≠ (y, x) := by simp
  have hrow : ∀ x₂ : ℕ, (y + 1, x₂) ≠ (y, x) := by
    rintro x₂ ⟨⟩
  unfold specStep
  simp only
  have hmain : qget (qset g y x (quantize (qget g y x))) y x = 0 ∨
      qget (qset g y x (quantize (qget g y x))) y x = 255 := by
    rcases Nat.lt_or_ge y g.length with hy | hy
    · rcases Nat.lt_or_ge x (g.getD y []).length with hx | hx
      · rw [qget_qset_self _ _ _ _ hy hx]
        unfold quantize
        split
        · exact Or.inr rfl
        · exact Or.inl rfl
      · rw [qset_out_of_range _ _ _ _ (fun _ => hx),
          qget_out_of_range _ _ _ (fun _ => hx)]
        exact Or.inl rfl
    · rw [qset_out_of_range _ _ _ _ (fun hlt => absurd hlt (Nat.not_lt.mpr hy)),
        qget_out_of_range _ _ _ (fun hlt => absurd hlt (Nat.not_lt.mpr hy))]
      exact Or.inl rfl
  split <;> split <;> split <;> split <;>
    simpa only [qget_qadd_ne _ _ hne1, qget_qadd_ne _ _ (hrow _)] using hmain

theorem qget_foldl_later (h w : ℕ) {steps : List (ℕ × ℕ)} {p : ℕ × ℕ}
    (hlater : ∀ q ∈ steps, rasterLt p q) (g : List (List ℚ)) :
    qget (steps.foldl (specStep h w) g) p.1 p.2 = qget g p.1 p.2 := by
  induction steps generalizing g with
  | nil => rfl
  | cons q steps ih =>
    rw [List.foldl_cons, ih (fun r hr => hlater r (List.mem_cons_of_mem q hr)),
      qget_specStep_later h w g (hlater q (List.mem_cons_self q steps))]

theorem qget_foldl_bilevel (h w : ℕ) {steps : List (ℕ × ℕ)}
    (hsort : steps.Pairwise rasterLt) {p : ℕ × ℕ} (hp : p ∈ steps)
    (g : List (List ℚ)) :
    qget (steps.foldl (specStep h w) g) p.1 p.2 = 0 ∨
      qget (steps.foldl (specStep h w) g) p.1 p.2 = 255 := by
  induction steps generalizing g with
  | nil => cases hp
  | cons q steps ih =>
    rcases List.mem_cons.mp hp with rfl | hp₂
    · rw [List.foldl_cons,
        qget_foldl_later h w (List.pairwise_cons.mp hsort).1 (specStep h w g p)]
      exact qget_specStep_self h w g p
    · exact ih (List.pairwise_cons.mp hsort).2 hp₂ (specStep h w g q)

/-! ### Bilevel grids and identity of the loop on them -/

/-- A grid whose samples are all exactly 0 or 255. -/
abbrev Bilevel (g : List (List ℕ)) : Prop := ∀ row ∈ g, ∀ v ∈ row, v = 0 ∨ v = 255

theorem getPx_bilevel {g : List (List ℕ)} (hg : Bilevel g) (x y : ℕ) :
    getPx g x y = 0 ∨ getPx g x y = 255 := by
  unfold getPx
  rcases Nat.lt_or_ge y g.length with hy | hy
  · rw [List.getD_eq_getElem _ _ hy]
    rcases Nat.lt_or_ge x g[y].length with hx | hx
    · rw [List.getD_eq_getElem _ _ hx]
      exact hg g[y] (List.getElem_mem hy) _ (List.getElem_mem hx)
    · rw [List.getD_eq_default _ _ hx]
      exact Or.inl rfl
  · rw [List.getD_eq_default _ _ hy]
    exact Or.inl (by rfl)

theorem qget_toFloatGrid (g : List (List ℕ)) (y x : ℕ) :
    qget (toFloatGrid g) y x = (getPx g x y : ℚ) := by
  unfold qget toFloatGrid getPx
  rw [getD_map_of_default _ _ _ ([] : List ℕ) (List.map_nil ..),
    getD_map_of_default _ _ _ (0 : ℕ) Nat.cast_zero]

theorem quantize_zero : quantize 0 = 0 := by norm_num [quantize]

theorem quantize_255 : quantize 255 = 255 := by norm_num [quantize]

theorem qset_qget_self (g : List (List ℚ)) (y x : ℕ) :
    qset g y x (qget g y x) = g := by
  unfold qset qget
  rw [set_getD_self, set_getD_self]

theorem specStep_bilevel_id (h w : ℕ) (g : List (List ℚ)) (q : ℕ × ℕ)
    (hq : qget g q.1 q.2 = 0 ∨ qget g q.1 q.2 = 255) :
    specStep h w g q = g := by
  obtain ⟨y, x⟩ := q
  have hquant : quantize (qget g y x) = qget g y x := by
    rcases hq with hq | hq <;> rw [hq]
    · exact quantize_zero
    · exact quantize_255
  have herr : qget g y x - quantize (qget g y x) = 0 := by rw [hquant, sub_self]
  unfold specStep
  simp only [herr, hquant, sub_self, zero_mul, qadd_zero, ite_self, qset_qget_self]

theorem foldl_specStep_bilevel_id (h w : ℕ) (steps : List (ℕ × ℕ))
    (g : List (List ℚ))
    (hg : ∀ q ∈ steps, qget g q.1 q.2 = 0 ∨ qget g q.1 q.2 = 255) :
    steps.foldl (specStep h w) g = g := by
  induction steps with
  | nil => rfl
  | cons q steps ih =>
    rw [List.foldl_cons, specStep_bilevel_id h w g q (hg q (List.mem_cons_self q steps))]
    exact ih (fun r hr => hg r (List.mem_cons_of_mem q hr))

theorem ratToUint8_natCast (v : ℕ) (hv : v < 256) : ratToUint8 (v : ℚ) = v := by
  unfold ratToUint8
  rw [Rat.num_natCast, Rat.den_natCast]
  push_cast
  omega

theorem toUint8_toFloat_id (g : List (List ℕ))
    (hg : ∀ row ∈ g, ∀ v ∈ row, v < 256) :
    toUint8Grid (toFloatGrid g) = g := by
  unfold toUint8Grid toFloatGrid
  rw [List.map_map]
  refine (List.map_congr_left fun row hrow => ?_).trans (List.map_id g)
  show (row.map _).map _ = id row
  rw [List.map_map]
  refine (List.map_congr_left fun v hv => ?_).trans (List.map_id row)
  exact ratToUint8_natCast v (hg row hrow v hv)

/-! ### Shape preservation of the loop and of the conversions -/

theorem length_specStep (h w : ℕ) (g : List (List ℚ)) (q : ℕ × ℕ) :
    (specStep h w g q).length = g.length := by
  obtain ⟨y, x⟩ := q
  unfold specStep
  simp only
  split_ifs <;> simp only [length_qadd, length_qset]

theorem rowLen_specStep (h w : ℕ) (g : List (List ℚ)) (q : ℕ × ℕ) (y₂ : ℕ) :
    ((specStep h w g q).getD y₂ []).length = ((g.getD y₂ []) : List ℚ).length := by
  obtain ⟨y, x⟩ := q
  unfold specStep
  simp only
  split_ifs <;> simp only [rowLen_qadd, rowLen_qset]

theorem length_foldl_specStep (h w : ℕ) (steps : List (ℕ × ℕ))
    (g : List (List ℚ)) : (steps.foldl (specStep h w) g).length = g.length := by
  induction steps generalizing g with
  | nil => rfl
  | cons q steps ih => rw [List.foldl_cons, ih, length_specStep]

theorem rowLen_foldl_specStep (h w : ℕ) (steps : List (ℕ × ℕ))
    (g : List (List ℚ)) (y₂ : ℕ) :
    ((steps.foldl (specStep h w) g).getD y₂ []).length = (g.getD y₂ []).length := by
  induction steps generalizing g with
  | nil => rfl
  | cons q steps ih => rw [List.foldl_cons, ih, rowLen_specStep]

theorem rowLen_gridMap (f : α → β) (g : List (List α)) (y : ℕ) :
    ((g.map (fun row => row.map f)).getD y []).length = (g.getD y []).length := by
  rw [getD_map_of_default _ _ _ ([] : List α) (List.map_nil ..), List.length_map]

theorem gridH_fsd (g : List (List ℕ)) :
    gridH (floyd_steinberg_dithering g) = gridH g := by
  unfold floyd_steinberg_dithering toUint8Grid gridH
  rw [List.length_map, ditherLoop_eq_raster, length_foldl_specStep]
  unfold toFloatGrid
  exact List.length_map ..

theorem rowLen_fsd (g : List (List ℕ)) (y : ℕ) :
    ((floyd_steinberg_dithering g).getD y []).length = ((g.getD y []) : List ℕ).length := by
  unfold floyd_steinberg_dithering toUint8Grid
  rw [rowLen_gridMap, ditherLoop_eq_raster, rowLen_foldl_specStep]
  unfold toFloatGrid
  rw [rowLen_gridMap]

theorem gridW_fsd (g : List (List ℕ)) :
    gridW (floyd_steinberg_dithering g) = gridW g := rowLen_fsd g 0

/-! ### The dithered output is two-level -/

theorem ratToUint8_zero : ratToUint8 0 = 0 := by
  rw [show (0 : ℚ) = ((0 : ℕ) : ℚ) from (Nat.cast_zero).symm]
  exact ratToUint8_natCast 0 (by norm_num)

theorem ratToUint8_255 : ratToUint8 255 = 255 := by
  rw [show (255 : ℚ) = ((255 : ℕ) : ℚ) by norm_num]
  exact ratToUint8_natCast 255 (by norm_num)

theorem ratToUint8_lt (q : ℚ) : ratToUint8 q < 256 := by
  unfold ratToUint8
  have := Int.emod_lt_of_pos (q.num / (q.den : ℤ)) (show (0 : ℤ) < 256 by norm_num)
  omega

theorem getPx_toUint8 (L : List (List ℚ)) (x y : ℕ) :
    getPx (toUint8Grid L) x y = ratToUint8 (qget L y x) := by
  unfold getPx toUint8Grid qget
  rw [getD_map_of_default _ _ _ ([] : List ℚ) (List.map_nil ..),
    getD_map_of_default _ _ _ (0 : ℚ) ratToUint8_zero]

theorem getPx_fsd_bilevel (g : List (List ℕ)) {x y : ℕ}
    (hy : y < gridH g) (hx : x < gridW g) :
    getPx (floyd_steinberg_dithering g) x y = 0 ∨
      getPx (floyd_steinberg_dithering g) x y = 255 := by
  unfold floyd_steinberg_dithering
  rw [getPx_toUint8, ditherLoop_eq_raster]
  rcases qget_foldl_bilevel (gridH g) (gridW g) (pairwise_rasterIndices ..)
      (p := (y, x)) (mem_rasterIndices.mpr ⟨hy, hx⟩) (toFloatGrid g) with h0 | h0
  · rw [show qget ((rasterIndices (gridH g) (gridW g)).foldl
        (specStep (gridH g) (gridW g)) (toFloatGrid g)) y x = 0 from h0, ratToUint8_zero]
    exact Or.inl rfl
  · rw [show qget ((rasterIndices (gridH g) (gridW g)).foldl
        (specStep (gridH g) (gridW g)) (toFloatGrid g)) y x = 255 from h0, ratToUint8_255]
    exact Or.inr rfl

theorem fsd_entry_lt (g : List (List ℕ)) :
    ∀ row ∈ floyd_steinberg_dithering g, ∀ v ∈ row, v < 256 := by
  unfold floyd_steinberg_dithering toUint8Grid
  intro row hrow v hv
  obtain ⟨row₀, _, rfl⟩ := List.mem_map.mp hrow
  obtain ⟨v₀, _, rfl⟩ := List.mem_map.mp hv
  exact ratToUint8_lt v₀

/-! ### Dithering fixes two-level images and is idempotent -/

theorem fsd_bilevel_id (g : List (List ℕ)) (hg : Bilevel g) :
    floyd_steinberg_dithering g = g := by
  unfold floyd_steinberg_dithering
  rw [ditherLoop_eq_raster, foldl_specStep_bilevel_id, toUint8_toFloat_id]
  · intro row hrow v hv
    rcases hg row hrow v hv with rfl | rfl <;> norm_num
  · intro q _
    rw [qget_toFloatGrid]
    rcases getPx_bilevel hg q.2 q.1 with h0 | h0 <;> rw [h0]
    · exact Or.inl (by norm_num)
    · exact Or.inr (by norm_num)

theorem fsd_idempotent (g : List (List ℕ)) :
    floyd_steinberg_dithering (floyd_steinberg_dithering g)
      = floyd_steinberg_dithering g := by
  conv_lhs => rw [floyd_steinberg_dithering]
  rw [gridH_fsd, gridW_fsd, ditherLoop_eq_raster, foldl_specStep_bilevel_id,
    toUint8_toFloat_id]
  · exact fsd_entry_lt g
  · intro q hq
    obtain ⟨hy, hx⟩ := mem_rasterIndices.mp hq
    rw [qget_toFloatGrid]
    rcases getPx_fsd_bilevel g hy hx with h0 | h0 <;> rw [h0]
    · exact Or.inl (by norm_num)
    · exact Or.inr (by norm_num)

/-! ### Bit-level analysis of the packed bytes -/

theorem byteVal_eq_or_fold (g : List (List ℕ)) (y x w : ℕ) :
    byteVal g y x w
      = (List.range 8).foldl
          (fun acc bit =>
            acc ||| (if x + bit < w ∧ getPx g (x + bit) y = 0 then 128 >>> bit else 0))
          0 := by
  unfold byteVal
  congr 1
  funext acc bit
  by_cases h1 : x + bit < w
  · by_cases h2 : getPx g (x + bit) y = 0 <;> simp [h1, h2]
  · simp [h1]

theorem testBit_foldl_or (m : ℕ → ℕ) (l : List ℕ) (acc k : ℕ) :
    Nat.testBit (l.foldl (fun a b => a ||| m b) acc) k
      = (Nat.testBit acc k || l.any (fun b => Nat.testBit (m b) k)) := by
  induction l generalizing acc with
  | nil => simp
  | cons b l ih => simp [ih, Nat.testBit_or, Bool.or_assoc]

theorem testBit_ite (c : Prop) [Decidable c] (a k : ℕ) :
    Nat.testBit (if c then a else 0) k = (decide c && Nat.testBit a k) := by
  split_ifs with h <;> simp [h]

theorem testBit_mask {bit j : ℕ} (hb : bit < 8) (hj : j < 8) :
    Nat.testBit (128 >>> bit) (7 - j) = decide (bit = j) := by
  interval_cases bit <;> interval_cases j <;> decide

theorem foldl_or_lt (m : ℕ → ℕ) (l : List ℕ) (hm : ∀ b, m b < 256) :
    ∀ acc, acc < 256 → l.foldl (fun a b => a ||| m b) acc < 256 := by
  induction l with
  | nil => exact fun acc h => h
  | cons b l ih =>
    intro acc hacc
    exact ih _ (Nat.or_lt_two_pow (n := 8) hacc (hm b))

theorem byteVal_lt (g : List (List ℕ)) (y x w : ℕ) : byteVal g y x w < 256 := by
  rw [byteVal_eq_or_fold]
  refine foldl_or_lt _ _ (fun b => ?_) 0 (by norm_num)
  split_ifs
  · calc 128 >>> b ≤ 128 := by
          rw [Nat.shiftRight_eq_div_pow]
          exact Nat.div_le_self ..
      _ < 256 := by norm_num
  · norm_num

theorem testBit_byteVal (g : List (List ℕ)) (y x w : ℕ) {j : ℕ} (hj : j < 8) :
    Nat.testBit (byteVal g y x w) (7 - j)
      = (decide (x + j < w) && decide (getPx g (x + j) y = 0)) := by
  rw [byteVal_eq_or_fold, testBit_foldl_or]
  rw [show List.range 8 = [0, 1, 2, 3, 4, 5, 6, 7] from rfl]
  simp only [List.any_cons, List.any_nil, testBit_ite, Nat.zero_testBit,
    Bool.false_or, Bool.or_false]
  rw [testBit_mask (by norm_num : (0:ℕ) < 8) hj, testBit_mask (by norm_num : (1:ℕ) < 8) hj,
    testBit_mask (by norm_num : (2:ℕ) < 8) hj, testBit_mask (by norm_num : (3:ℕ) < 8) hj,
    testBit_mask (by norm_num : (4:ℕ) < 8) hj, testBit_mask (by norm_num : (5:ℕ) < 8) hj,
    testBit_mask (by norm_num : (6:ℕ) < 8) hj, testBit_mask (by norm_num : (7:ℕ) < 8) hj]
  interval_cases j <;> simp

/-! ### Structure of the packed bitmap -/

theorem packLine_eq (g : List (List ℕ)) (w y : ℕ) :
    packLine g w y
      = (List.range (bytesPerLine w)).map (fun i => byteVal g y (8 * i) w) := by
  unfold packLine
  simp

theorem length_packLine (g : List (List ℕ)) (w y : ℕ) :
    (packLine g w y).length = bytesPerLine w := by
  rw [packLine_eq]
  simp

theorem getD_packLine (g : List (List ℕ)) (w y : ℕ) {i : ℕ}
    (hi : i < bytesPerLine w) (d : ℕ) :
    (packLine g w y).getD i d = byteVal g y (8 * i) w := by
  rw [packLine_eq,
    List.getD_eq_getElem _ _ (by simpa using hi), List.getElem_map, List.getElem_range]

theorem getD_append_left {l₁ l₂ : List α} {n : ℕ} (hn : n < l₁.length) (d : α) :
    (l₁ ++ l₂).getD n d = l₁.getD n d := by
  rw [List.getD_eq_getElem?_getD, List.getElem?_append_left hn,
    ← List.getD_eq_getElem?_getD]

theorem getD_append_right {l₁ l₂ : List α} {n : ℕ} (hn : l₁.length ≤ n) (d : α) :
    (l₁ ++ l₂).getD n d = l₂.getD (n - l₁.length) d := by
  rw [List.getD_eq_getElem?_getD, List.getElem?_append_right hn,
    ← List.getD_eq_getElem?_getD]

theorem length_flatMap_const (f : ℕ → List ℕ) (m h : ℕ)
    (hlen : ∀ y, (f y).length = m) :
    ((List.range h).flatMap f).length = h * m := by
  induction h with
  | zero => simp
  | succ h ih =>
    rw [List.range_succ, List.flatMap_append, List.length_append, ih]
    simp [hlen h, Nat.succ_mul]

theorem getD_flatMap_range (f : ℕ → List ℕ) (m h : ℕ)
    (hlen : ∀ y, (f y).length = m) {y i : ℕ} (hy : y < h) (hi : i < m) (d : ℕ) :
    ((List.range h).flatMap f).getD (y * m + i) d = (f y).getD i d := by
  induction h with
  | zero => omega
  | succ h ih =>
    rw [List.range_succ, List.flatMap_append,
      List.flatMap_cons, List.flatMap_nil, List.append_nil]
    rcases Nat.lt_or_ge y h with hy2 | hy2
    · rw [getD_append_left, ih hy2]
      rw [length_flatMap_const f m h hlen]
      calc y * m + i < y * m + m := by omega
        _ ≤ h * m := by
            rw [← Nat.succ_mul]
            exact Nat.mul_le_mul_right m hy2
    · have hyh : y = h := by omega
      subst hyh
      rw [getD_append_right (by rw [length_flatMap_const f m y hlen]; omega)]
      rw [length_flatMap_const f m y hlen]
      congr 1
      omega

theorem length_packBitmap (g : List (List ℕ)) (w h : ℕ) :
    (packBitmap g w h).length = h * bytesPerLine w :=
  length_flatMap_const _ _ h (length_packLine g w)

theorem getD_packBitmap (g : List (List ℕ)) (w h : ℕ) {y i : ℕ}
    (hy : y < h) (hi : i < bytesPerLine w) (d : ℕ) :
    (packBitmap g w h).getD (y * bytesPerLine w + i) d = byteVal g y (8 * i) w := by
  unfold packBitmap
  rw [getD_flatMap_range _ _ h (length_packLine g w) hy hi, getD_packLine _ _ _ hi]

/-! ### Unpacking (spec-modelled) and the pack/unpack round trip -/

/-- Modelled from the spec: the source has no unpacking routine; §8 states
"Packing is invertible at the pixel level: for any BilevelImage,
`unpack(pack(img)) == img`".  Reads a PackedBitmap per §3/§4.2: 8 pixels per
byte, row-major, most-significant bit first, `bytes_per_row = ceil(width/8)`,
a set bit meaning black (sample 0) and a clear bit white (sample 255). -/
def unpack (data : List ℕ) (w h : ℕ) : List (List ℕ) :=
  (List.range h).map (fun y =>
    (List.range w).map (fun x =>
      if Nat.testBit (data.getD (y * bytesPerLine w + x / 8) 0) (7 - x % 8)
      then 0 else 255))

theorem div8_lt_bytesPerLine {x w : ℕ} (hx : x < w) : x / 8 < bytesPerLine w := by
  unfold bytesPerLine
  omega

theorem testBit_packBitmap (g : List (List ℕ)) (w h : ℕ) {y x : ℕ}
    (hy : y < h) (hx : x < w) :
    Nat.testBit ((packBitmap g w h).getD (y * bytesPerLine w + x / 8) 0) (7 - x % 8)
      = (decide (x < w) && decide (getPx g x y = 0)) := by
  rw [getD_packBitmap g w h hy (div8_lt_bytesPerLine hx),
    testBit_byteVal g y (8 * (x / 8)) w (Nat.mod_lt x (by norm_num)),
    Nat.div_add_mod x 8]

theorem unpack_packBitmap (g : List (List ℕ)) (hrect : Rectangular g)
    (hbl : Bilevel g) :
    unpack (packBitmap g (gridW g) (gridH g)) (gridW g) (gridH g) = g := by
  unfold unpack
  apply List.ext_getElem
  · simp [gridH]
  · intro y hy1 hy2
    rw [List.getElem_map, List.getElem_range]
    have hy : y < gridH g := by simpa using hy1
    have hyg : y < g.length := hy
    apply List.ext_getElem
    · rw [List.length_map, List.length_range]
      exact (hrect g[y] (List.getElem_mem hyg)).symm
    · intro x hx1 hx2
      rw [List.getElem_map, List.getElem_range]
      have hx : x < gridW g := by simpa using hx1
      rw [testBit_packBitmap g (gridW g) (gridH g) hy hx]
      have hpx : getPx g x y = g[y][x] := by
        unfold getPx
        rw [List.getD_eq_getElem _ _ hyg, List.getD_eq_getElem _ _ hx2]
      rcases hbl g[y] (List.getElem_mem hyg) g[y][x] (List.getElem_mem hx2)
          with h0 | h0 <;> rw [h0] at hpx <;> simp [hx, hpx, h0]

/-! ### Inversion versus packing -/

/-- Modelled from the spec (§4.2): "An optional global invert flag flips every
bit after packing" — flip every bit of every packed byte, as a final pass. -/
def invertPacked (bs : List ℕ) : List ℕ := bs.map (fun b => b ^^^ 255)

theorem row_invertImg (g : List (List ℕ)) (y : ℕ) :
    (invertImg g).getD y [] = (g.getD y []).map (fun v => 255 - v) := by
  unfold invertImg
  rw [getD_map_of_default _ _ _ ([] : List ℕ) (List.map_nil ..)]

theorem getPx_invertImg (g : List (List ℕ)) {x y : ℕ}
    (hx : x < (g.getD y []).length) :
    getPx (invertImg g) x y = 255 - getPx g x y := by
  unfold getPx
  rw [row_invertImg, List.getD_eq_getElem _ _ (by simpa using hx),
    List.getElem_map, List.getD_eq_getElem _ _ hx]

theorem testBit_255 {k : ℕ} (hk : k < 8) : Nat.testBit 255 k = true := by
  interval_cases k <;> decide

theorem testBit_of_ge_8 {b : ℕ} (hb : b < 256) {k : ℕ} (hk : 8 ≤ k) :
    Nat.testBit b k = false := by
  apply Nat.testBit_lt_two_pow
  calc b < 256 := hb
    _ = 2 ^ 8 := by norm_num
    _ ≤ 2 ^ k := Nat.pow_le_pow_right (by norm_num) hk

theorem byteVal_invertImg (g : List (List ℕ)) (hrect : Rectangular g)
    (hbl : Bilevel g) {y i : ℕ} (hy : y < g.length)
    (h8 : 8 ∣ gridW g) (hi : i < bytesPerLine (gridW g)) :
    byteVal (invertImg g) y (8 * i) (gridW g)
      = byteVal g y (8 * i) (gridW g) ^^^ 255 := by
  have hrow : (g.getD y []).length = gridW g := by
    rw [List.getD_eq_getElem _ _ hy]
    exact hrect g[y] (List.getElem_mem hy)
  have hbpl : bytesPerLine (gridW g) = gridW g / 8 := by
    obtain ⟨c, hc⟩ := h8
    unfold bytesPerLine
    omega
  apply Nat.eq_of_testBit_eq
  intro k
  rcases Nat.lt_or_ge k 8 with hk | hk
  · have hjk : k = 7 - (7 - k) := by omega
    have hj : 7 - k < 8 := by omega
    have hinb : 8 * i + (7 - k) < gridW g := by
      obtain ⟨c, hc⟩ := h8
      rw [hbpl] at hi
      omega
    rw [hjk, testBit_byteVal _ _ _ _ hj, Nat.testBit_xor,
      testBit_byteVal _ _ _ _ hj, testBit_255 (k := 7 - (7 - k)) (by omega),
      getPx_invertImg g (by rw [hrow]; exact hinb)]
    rcases getPx_bilevel hbl (8 * i + (7 - k)) y with h0 | h0 <;>
      simp [h0, hinb]
  · rw [Nat.testBit_xor, testBit_of_ge_8 (byteVal_lt ..) hk,
      testBit_of_ge_8 (byteVal_lt ..) hk,
      testBit_of_ge_8 (by norm_num : (255 : ℕ) < 256) hk]
    rfl

theorem flatMap_congr_left {l : List α} {f f₂ : α → List β}
    (h : ∀ a ∈ l, f a = f₂ a) : l.flatMap f = l.flatMap f₂ := by
  induction l with
  | nil => rfl
  | cons a l ih =>
    rw [List.flatMap_cons, List.flatMap_cons, h a (List.mem_cons_self a l),
      ih (fun b hb => h b (List.mem_cons_of_mem a hb))]

theorem packLine_invertImg (g : List (List ℕ)) (hrect : Rectangular g)
    (hbl : Bilevel g) {y : ℕ} (hy : y < g.length) (h8 : 8 ∣ gridW g) :
    packLine (invertImg g) (gridW g) y
      = (packLine g (gridW g) y).map (fun b => b ^^^ 255) := by
  rw [packLine_eq, packLine_eq, List.map_map]
  refine List.map_congr_left fun i hi => ?_
  exact byteVal_invertImg g hrect hbl hy h8 (List.mem_range.mp hi)

theorem packBitmap_invertImg (g : List (List ℕ)) (hrect : Rectangular g)
    (hbl : Bilevel g) (h8 : 8 ∣ gridW g) :
    packBitmap (invertImg g) (gridW g) (gridH g)
      = invertPacked (packBitmap g (gridW g) (gridH g)) := by
  unfold packBitmap invertPacked
  rw [List.map_flatMap]
  refine flatMap_congr_left fun y hy => ?_
  exact packLine_invertImg g hrect hbl (List.mem_range.mp hy) h8

/-! ### Shape of the processed image and structure of the output buffer -/

theorem gridH_gridMap (f : α → β) (g : List (List α)) :
    gridH (g.map (fun row => row.map f)) = gridH g := List.length_map ..

theorem gridW_gridMap (f : α → β) (g : List (List α)) :
    gridW (g.map (fun row => row.map f)) = gridW g := by
  unfold gridW
  rw [getD_map_of_default _ _ _ ([] : List α) (List.map_nil ..), List.length_map]

theorem gridH_procImg (image : List (List ℕ)) (invert dither : Bool) :
    gridH (procImg image invert dither) = gridH image := by
  unfold procImg pointBW invertImg
  rcases invert <;> rcases dither <;>
    simp [gridH_gridMap, gridH_fsd]

theorem gridW_procImg (image : List (List ℕ)) (invert dither : Bool) :
    gridW (procImg image invert dither) = gridW image := by
  unfold procImg pointBW invertImg
  rcases invert <;> rcases dither <;>
    simp [gridW_gridMap, gridW_fsd]

theorem and255_eq_mod (n : ℕ) : n &&& 255 = n % 256 := by
  have h := Nat.and_pow_two_sub_one_eq_mod n 8
  norm_num at h
  exact h

theorem shift8_and255 (n : ℕ) : (n >>> 8) &&& 255 = n / 256 % 256 := by
  rw [and255_eq_mod, Nat.shiftRight_eq_div_pow]

theorem convert_gsv0 (image : List (List ℕ)) (invert : Bool) (align : String)
    (dither : Bool) :
    convert_to_bitmap image invert align "gsv0" dither
      = alignCmd align
        ++ ([0x1D, 0x76, 0x30, 0x00,
             bytesPerLine (gridW image) % 256, bytesPerLine (gridW image) / 256 % 256,
             gridH image % 256, gridH image / 256 % 256]
            ++ packBitmap (procImg image invert dither) (gridW image) (gridH image))
        ++ [0x1B, 0x61, 0x00] := by
  show (alignCmd align ++
      if ("gsv0" : String) = "gsv0" then _ ++ packBitmap _ _ _ else _ ++ columnBody _ _ _)
      ++ _ = _
  rw [if_pos rfl, gridW_procImg, gridH_procImg, and255_eq_mod, shift8_and255,
    and255_eq_mod, shift8_and255, List.append_assoc]

theorem convert_column (image : List (List ℕ)) (invert : Bool) (align : String)
    (mode : String) (dither : Bool) (hmode : mode ≠ "gsv0") :
    convert_to_bitmap image invert align mode dither
      = alignCmd align
        ++ ([0x1B, 0x2A, 33, gridW image % 256, gridW image / 256 % 256]
            ++ columnBody (procImg image invert dither) (gridW image) (gridH image))
        ++ [0x1B, 0x61, 0x00] := by
  show (alignCmd align ++
      if mode = "gsv0" then _ ++ packBitmap _ _ _ else _ ++ columnBody _ _ _)
      ++ _ = _
  rw [if_neg hmode, gridW_procImg, gridH_procImg, and255_eq_mod, shift8_and255,
    List.append_assoc]

theorem length_columnBody (g : List (List ℕ)) (w h : ℕ) :
    (columnBody g w h).length = h * w := by
  unfold columnBody
  exact length_flatMap_const _ _ h (fun y => by simp)

theorem getD_map_range (f : ℕ → ℕ) {x w : ℕ} (hx : x < w) (d : ℕ) :
    ((List.range w).map f).getD x d = f x := by
  rw [List.getD_eq_getElem _ _ (by simpa using hx), List.getElem_map,
    List.getElem_range]

theorem getD_columnBody (g : List (List ℕ)) (w h : ℕ) {y x : ℕ}
    (hy : y < h) (hx : x < w) :
    (columnBody g w h).getD (y * w + x) 0
      = if getPx g x y = 0 then 0xFF else 0x00 := by
  unfold columnBody
  rw [getD_flatMap_range _ w h (fun y => by simp) hy hx, getD_map_range _ hx]

/-- The byte order asserted by claim C7 (spec §4.2): "followed by, for every
column `x` and every row `y`, one full byte per pixel" — columns outermost. -/
def columnMajorBody (g : List (List ℕ)) (w h : ℕ) : List ℕ :=
  (List.range w).flatMap
    (fun x => (List.range h).map (fun y => if getPx g x y = 0 then 0xFF else 0x00))

/-! ## The heap model for the frame claim C10 -/

/-- The numpy-array store around a call to `floyd_steinberg_dithering`: the
argument array lives in a heap of arrays; the call allocates its result as a
fresh array (print_image_any.py line 20, `output = img_array.copy().astype(float)`
— every subsequent write in the function targets this copy) and returns a
reference to the new array. -/
def ditherCall (heap : List (List (List ℕ))) (r : ℕ) :
    List (List (List ℕ)) × ℕ :=
  (heap ++ [floyd_steinberg_dithering (heap.getD r [])], heap.length)

/-! ## Claims -/

/-- Claim C1 (confirmed): for every grayscale image, `floyd_steinberg_dithering`
visits pixels in raster order (row by row, left to right) and at each pixel
quantizes the accumulated value v to white 255 iff v > 128 (so v = 128
quantizes to black), then adds error = v − outputLevel to the not-yet-visited
neighbors with weights 7/16 east, 3/16 southwest, 5/16 south, 1/16 southeast,
silently dropping out-of-bounds contributions; intermediate accumulated values
are not clamped (on the 1×2 image [128, 255] the second pixel is read as
311 > 255). -/
theorem claim_C1 :
    (∀ g : List (List ℕ),
        floyd_steinberg_dithering g
          = toUint8Grid ((rasterIndices (gridH g) (gridW g)).foldl
              (specStep (gridH g) (gridW g)) (toFloatGrid g)))
    ∧ (∀ v : ℚ, quantize v = 255 ↔ 128 < v)
    ∧ quantize 128 = 0
    ∧ qget (specStep 1 2 (toFloatGrid [[128, 255]]) (0, 0)) 0 1 = 311
    ∧ (255 : ℚ) < 311 := by
  refine ⟨fun g => ?_, fun v => ?_, by norm_num [quantize], ?_, by norm_num⟩
  · unfold floyd_steinberg_dithering
    rw [ditherLoop_eq_raster]
  · unfold quantize
    split_ifs with h
    · simp [h]
    · constructor
      · intro habs
        norm_num at habs
      · intro habs
        exact absurd habs h
  · norm_num [specStep, quantize, qget, qset, qadd, toFloatGrid, List.set]

/-- Claim C2 (confirmed): in raster (gsv0) mode the output is the alignment
command, then the single command 0x1D 0x76 0x30, m = 0, bytes-per-row =
ceil(width/8) as 16-bit little-endian, height as 16-bit little-endian,
followed by the full packed bitmap, then the left-alignment reset; a 1×1
all-black image yields header 1D 76 30 00 01 00 01 00 followed by 0x80. -/
theorem claim_C2 :
    (∀ (image : List (List ℕ)) (invert : Bool) (align : String) (dither : Bool),
        convert_to_bitmap image invert align "gsv0" dither
          = alignCmd align
            ++ ([0x1D, 0x76, 0x30, 0x00,
                 bytesPerLine (gridW image) % 256,
                 bytesPerLine (gridW image) / 256 % 256,
                 gridH image % 256, gridH image / 256 % 256]
                ++ packBitmap (procImg image invert dither) (gridW image)
                    (gridH image))
            ++ [0x1B, 0x61, 0x00]
          ∧ bytesPerLine (gridW image) = (gridW image + 7) / 8
          ∧ (packBitmap (procImg image invert dither) (gridW image)
                (gridH image)).length
              = gridH image * bytesPerLine (gridW image))
    ∧ convert_to_bitmap [[0]] false "left" "gsv0" true
        = [0x1B, 0x61, 0x00, 0x1D, 0x76, 0x30, 0x00, 0x01, 0x00, 0x01, 0x00, 0x80,
           0x1B, 0x61, 0x00] := by
  constructor
  · intro image invert align dither
    exact ⟨convert_gsv0 image invert align dither, rfl, length_packBitmap ..⟩
  · have h1 : floyd_steinberg_dithering [[0]] = [[0]] :=
      fsd_bilevel_id [[0]] (by decide)
    have h2 : procImg [[0]] false true = [[0]] := by
      simp only [procImg, if_true, h1]
      decide
    rw [convert_gsv0, h2]
    decide

/-- Claim C3 (confirmed; unpack is spec-modelled): packing stores pixels 8 per
byte in row-major order, black = bit 1, most-significant bit = leftmost pixel,
rows zero-padded to ceil(width/8) bytes, total length ceil(width/8)·height,
and unpacking recovers the image pixel for pixel. -/
theorem claim_C3 (g : List (List ℕ)) (hrect : Rectangular g) (hbl : Bilevel g) :
    (packBitmap g (gridW g) (gridH g)).length = bytesPerLine (gridW g) * gridH g
    ∧ bytesPerLine (gridW g) = (gridW g + 7) / 8
    ∧ unpack (packBitmap g (gridW g) (gridH g)) (gridW g) (gridH g) = g :=
  ⟨by rw [length_packBitmap, Nat.mul_comm], rfl, unpack_packBitmap g hrect hbl⟩

/-- Witness for C3 at the 2×2 bilevel image [[0,255],[255,0]]. -/
theorem claim_C3_witness :
    Rectangular [[0, 255], [255, 0]] ∧ Bilevel [[0, 255], [255, 0]]
    ∧ unpack (packBitmap [[0, 255], [255, 0]] (gridW [[0, 255], [255, 0]])
          (gridH [[0, 255], [255, 0]]))
        (gridW [[0, 255], [255, 0]]) (gridH [[0, 255], [255, 0]])
        = [[0, 255], [255, 0]] :=
  ⟨by decide, by decide, (claim_C3 [[0, 255], [255, 0]] (by decide) (by decide)).2.2⟩

/-- Counterexample to claim C4 as stated: the claim predicts white (255) for
intensity v = 0 < 128, but the threshold lambda of line 73 maps v = 0 to
black (0). -/
theorem claim_C4_counterexample :
    (0 : ℕ) < 128 ∧ bwPixel 0 = 0 ∧ bwPixel 0 ≠ 255 := by decide

/-- Claim C4 (corrected): with dithering disabled, the direct 128-threshold
maps v to black (0) iff v < 128 and to white (255) iff v ≥ 128 — the operator
is still asymmetric to the dithered path, which sends v = 128 to black while
the direct threshold sends it to white. -/
theorem claim_C4 :
    (∀ v : ℕ, (bwPixel v = 255 ↔ 128 ≤ v) ∧ (bwPixel v = 0 ↔ v < 128))
    ∧ bwPixel 128 = 255
    ∧ quantize 128 = 0 := by
  refine ⟨fun v => ?_, by decide, by norm_num [quantize]⟩
  unfold bwPixel
  split_ifs with h <;>
    refine ⟨⟨fun h2 => ?_, fun h2 => ?_⟩, ⟨fun h2 => ?_, fun h2 => ?_⟩⟩ <;>
    first
    | exact h2.elim
    | omega

/-- Counterexample to claim C5 as stated: on the 1×1 black bilevel image the
padding bits differ — packing the inverted image gives 0x00 while flipping
every bit of the packed original gives 0x7F. -/
theorem claim_C5_counterexample :
    Rectangular [[0]] ∧ Bilevel [[0]]
    ∧ packBitmap (invertImg [[0]]) (gridW [[0]]) (gridH [[0]]) = [0x00]
    ∧ invertPacked (packBitmap [[0]] (gridW [[0]]) (gridH [[0]])) = [0x7F]
    ∧ packBitmap (invertImg [[0]]) (gridW [[0]]) (gridH [[0]])
        ≠ invertPacked (packBitmap [[0]] (gridW [[0]]) (gridH [[0]])) := by decide

/-- Claim C5 (corrected): inversion commutes with packing bitwise when the
width is a multiple of 8 (no padding bits); with padding bits (width not a
multiple of 8) the two sides differ on the zero-padded low-order bits. -/
theorem claim_C5 (g : List (List ℕ)) (hrect : Rectangular g) (hbl : Bilevel g)
    (h8 : 8 ∣ gridW g) :
    packBitmap (invertImg g) (gridW g) (gridH g)
      = invertPacked (packBitmap g (gridW g) (gridH g)) :=
  packBitmap_invertImg g hrect hbl h8

/-- Witness for C5 at a 1×8 bilevel image. -/
theorem claim_C5_witness :
    Rectangular [[0, 255, 0, 0, 255, 255, 0, 0]]
    ∧ Bilevel [[0, 255, 0, 0, 255, 255, 0, 0]]
    ∧ 8 ∣ gridW [[0, 255, 0, 0, 255, 255, 0, 0]]
    ∧ packBitmap (invertImg [[0, 255, 0, 0, 255, 255, 0, 0]])
          (gridW [[0, 255, 0, 0, 255, 255, 0, 0]])
          (gridH [[0, 255, 0, 0, 255, 255, 0, 0]])
        = invertPacked (packBitmap [[0, 255, 0, 0, 255, 255, 0, 0]]
            (gridW [[0, 255, 0, 0, 255, 255, 0, 0]])
            (gridH [[0, 255, 0, 0, 255, 255, 0, 0]])) :=
  ⟨by decide, by decide, by decide,
   claim_C5 [[0, 255, 0, 0, 255, 255, 0, 0]] (by decide) (by decide) (by decide)⟩

/-- Claim C6 (confirmed): the output buffer is [Align][ImageCommand][Align=left]
— it starts with 1B 61 m (m = 0/1/2 for left/center/right), an unrecognized
alignment defaults to center (m = 1) in the image pipeline but to left (m = 0)
in the standalone esc_align encoder, and the buffer always ends with the hard
reset 1B 61 00 regardless of the requested alignment. -/
theorem claim_C6 :
    (∀ (image : List (List ℕ)) (invert : Bool) (align mode : String)
        (dither : Bool), ∃ body,
        convert_to_bitmap image invert align mode dither
          = alignCmd align ++ body ++ [0x1B, 0x61, 0x00])
    ∧ alignCmd "left" = [0x1B, 0x61, 0x00]
    ∧ alignCmd "center" = [0x1B, 0x61, 0x01]
    ∧ alignCmd "right" = [0x1B, 0x61, 0x02]
    ∧ (∀ s : String, pyLower s ≠ "left" → pyLower s ≠ "center" →
        pyLower s ≠ "right" → alignCmd s = [0x1B, 0x61, 0x01])
    ∧ esc_align "left" = [0x1B, 0x61, 0x00]
    ∧ esc_align "center" = [0x1B, 0x61, 0x01]
    ∧ esc_align "right" = [0x1B, 0x61, 0x02]
    ∧ (∀ s : String, s ≠ "left" → s ≠ "center" → s ≠ "right" →
        esc_align s = [0x1B, 0x61, 0x00]) := by
  refine ⟨fun image invert align mode dither => ⟨_, rfl⟩,
    by decide, by decide, by decide, fun s h1 h2 h3 => ?_,
    by decide, by decide, by decide, fun s h1 h2 h3 => ?_⟩
  · unfold alignCmd
    rw [if_neg h1, if_neg h2, if_neg h3]
  · unfold esc_align
    rw [if_neg h1, if_neg h2, if_neg h3]

/-- Witness for C6 at the unrecognized alignment string "mid". -/
theorem claim_C6_witness :
    pyLower "mid" ≠ "left" ∧ pyLower "mid" ≠ "center" ∧ pyLower "mid" ≠ "right"
    ∧ alignCmd "mid" = [0x1B, 0x61, 0x01]
    ∧ ("mid" : String) ≠ "left" ∧ ("mid" : String) ≠ "center"
    ∧ ("mid" : String) ≠ "right"
    ∧ esc_align "mid" = [0x1B, 0x61, 0x00]
    ∧ ∃ body, convert_to_bitmap [[200]] false "mid" "column" false
        = alignCmd "mid" ++ body ++ [0x1B, 0x61, 0x00] :=
  ⟨by decide, by decide, by decide,
   claim_C6.2.2.2.2.1 "mid" (by decide) (by decide) (by decide),
   by decide, by decide, by decide,
   claim_C6.2.2.2.2.2.2.2.2 "mid" (by decide) (by decide) (by decide),
   claim_C6.1 [[200]] false "mid" "column" false⟩

/-- Counterexample to claim C7 as stated: the column-mode data bytes are
emitted row-major (y outer, x inner), not "for every column x and every row y".
On the 2×2 image whose only black pixel is at (x = 1, y = 0) the code emits
00 FF 00 00 while the claimed column-outer order would emit 00 00 FF 00. -/
theorem claim_C7_counterexample :
    convert_to_bitmap [[255, 0], [255, 255]] false "left" "column" false
      = [0x1B, 0x61, 0x00] ++ ([0x1B, 0x2A, 33, 2, 0] ++ [0x00, 0xFF, 0x00, 0x00])
        ++ [0x1B, 0x61, 0x00]
    ∧ columnMajorBody (procImg [[255, 0], [255, 255]] false false) 2 2
        = [0x00, 0x00, 0xFF, 0x00]
    ∧ convert_to_bitmap [[255, 0], [255, 255]] false "left" "column" false
        ≠ [0x1B, 0x61, 0x00]
          ++ ([0x1B, 0x2A, 33, 2, 0]
              ++ columnMajorBody (procImg [[255, 0], [255, 255]] false false) 2 2)
          ++ [0x1B, 0x61, 0x00] := by decide

/-- Claim C7 (corrected): in column mode the command is 1B 2A, 33, width as
16-bit little-endian, followed by one full byte per pixel — 0xFF if black,
0x00 otherwise — in row-major order (for every row y and every column x, the
byte at offset y·width + x encodes pixel (x, y)); the encoding is per-pixel,
with width·height data bytes, not the bit-packed PackedBitmap layout. -/
theorem claim_C7 (image : List (List ℕ)) (invert dither : Bool)
    (align mode : String) (hmode : mode ≠ "gsv0") :
    convert_to_bitmap image invert align mode dither
      = alignCmd align
        ++ ([0x1B, 0x2A, 33, gridW image % 256, gridW image / 256 % 256]
            ++ columnBody (procImg image invert dither) (gridW image)
                (gridH image))
        ++ [0x1B, 0x61, 0x00]
    ∧ (columnBody (procImg image invert dither) (gridW image)
          (gridH image)).length = gridH image * gridW image
    ∧ (∀ y x : ℕ, y < gridH image → x < gridW image →
        (columnBody (procImg image invert dither) (gridW image)
              (gridH image)).getD (y * gridW image + x) 0
          = if getPx (procImg image invert dither) x y = 0 then 0xFF else 0x00) :=
  ⟨convert_column image invert align mode dither hmode,
   length_columnBody ..,
   fun _ _ hy hx => getD_columnBody _ _ _ hy hx⟩

/-- Witness for C7 at a 1×1 black image in column mode. -/
theorem claim_C7_witness :
    ("column" : String) ≠ "gsv0"
    ∧ convert_to_bitmap [[0]] false "left" "column" false
        = [0x1B, 0x61, 0x00, 0x1B, 0x2A, 33, 1, 0, 0xFF, 0x1B, 0x61, 0x00] := by
  refine ⟨by decide, ?_⟩
  rw [(claim_C7 [[0]] false false "left" "column" (by decide)).1]
  decide

/-- Claim C8 (confirmed): on an image whose pixels are all exactly 0 or 255,
dithering returns the identical image (every quantization error is zero), and
dithering is idempotent on every grayscale input. -/
theorem claim_C8 :
    (∀ g : List (List ℕ), Bilevel g → floyd_steinberg_dithering g = g)
    ∧ ∀ g : List (List ℕ),
        floyd_steinberg_dithering (floyd_steinberg_dithering g)
          = floyd_steinberg_dithering g :=
  ⟨fsd_bilevel_id, fsd_idempotent⟩

/-- Witness for C8 at the 2×2 bilevel image [[0,255],[255,0]]. -/
theorem claim_C8_witness :
    Bilevel [[0, 255], [255, 0]]
    ∧ floyd_steinberg_dithering [[0, 255], [255, 0]] = [[0, 255], [255, 0]] :=
  ⟨by decide, claim_C8.1 [[0, 255], [255, 0]] (by decide)⟩

/-- Counterexample to claim C9 as stated: a text already ending in 0x0A still
receives an additional terminator (server.py line 436 appends unconditionally). -/
theorem claim_C9_counterexample :
    printTextPayload [0x41, 0x0A] = [0x41, 0x0A, 0x0A]
    ∧ printTextPayload [0x41, 0x0A] ≠ [0x41, 0x0A] := by decide

/-- Claim C9 (corrected): a trailing 0x0A is always appended — the payload is
the caller's text followed by exactly one extra 0x0A byte, whether or not the
text already ends with one. -/
theorem claim_C9 :
    ∀ text : List ℕ,
      (printTextPayload text).getLast? = some 0x0A
      ∧ (printTextPayload text).length = text.length + 1
      ∧ (printTextPayload text).take text.length = text := by
  intro t
  refine ⟨?_, by simp [printTextPayload], ?_⟩
  · show (t ++ [0x0A]).getLast? = some 0x0A
    exact List.getLast?_concat t
  · show (t ++ [0x0A]).take t.length = t
    exact List.take_left t _

/-- Claim C10 (confirmed): `floyd_steinberg_dithering` never mutates its
argument array — in the heap model the caller's cell is unchanged by the call,
the result is a freshly allocated array holding the dithered image, and
re-running the call on the same caller-owned cell deterministically reproduces
the same result. -/
theorem claim_C10 (heap : List (List (List ℕ))) (r : ℕ) (hr : r < heap.length) :
    (ditherCall heap r).1.getD r [] = heap.getD r []
    ∧ (ditherCall heap r).1.getD (ditherCall heap r).2 []
        = floyd_steinberg_dithering (heap.getD r [])
    ∧ (ditherCall (ditherCall heap r).1 r).1.getD
          (ditherCall (ditherCall heap r).1 r).2 []
        = (ditherCall heap r).1.getD (ditherCall heap r).2 [] := by
  have hself : ∀ (hp : List (List (List ℕ))) (v : List (List ℕ)),
      (hp ++ [v]).getD hp.length [] = v := by
    intro hp v
    rw [getD_append_right (le_refl _), Nat.sub_self]
    rfl
  have h1 : (ditherCall heap r).1.getD r [] = heap.getD r [] :=
    getD_append_left hr []
  refine ⟨h1, hself heap _, ?_⟩
  show ((ditherCall heap r).1
      ++ [floyd_steinberg_dithering ((ditherCall heap r).1.getD r [])]).getD
        (ditherCall heap r).1.length []
    = (heap ++ [floyd_steinberg_dithering (heap.getD r [])]).getD heap.length []
  rw [hself, h1, hself]

/-- Witness for C10: a one-cell heap holding a 1×1 image. -/
theorem claim_C10_witness :
    0 < ([[[200]]] : List (List (List ℕ))).length
    ∧ (ditherCall [[[200]]] 0).1.getD 0 [] = [[200]] := by
  refine ⟨by decide, ?_⟩
  rw [(claim_C10 [[[200]]] 0 (by decide)).1]
  decide

end PrintersManager
